import Mathlib

/-!
Verification of the aggregator core of Stream-Framework
(`feedly/aggregators/base.py`): grouping of activities into aggregated
buckets, pluggable ranking, and the merge/reconciliation of two
generations of aggregated buckets.

The embedding is shallow:

* `AggregatedActivity` models one bucket (the class lives in
  `feedly/activity.py`, outside the provided sources, so its shape is
  modelled from the spec's data model: a `group` key fixed at creation
  and an insertion-ordered, append-only `activities` list).
* Python lists become `List`, Python dicts become association lists /
  lookup functions with Python's last-write-wins key semantics.
* `raise ValueError(...)` becomes `Except.error`.
* Python's in-place stable `list.sort` becomes `List.mergeSort`
  (a stable sort) on the value level; `max([])`, which raises in
  Python, makes the ranking functions return `Option` (`none` = raise).
* Mutation and object identity, which the merge-non-mutation property is
  about, are modelled separately by an explicit heap of buckets
  addressed by natural-number references (`Heap`, `mergeS`): `deepcopy`
  allocates a fresh cell, `append` mutates a cell in place.
-/

namespace Feedly

/-- Modelled from the spec: `AggregatedActivity` from `feedly/activity.py`
(not under the provided sources). One bucket: a `group` key assigned at
creation and never mutated, and an insertion-ordered sequence of
activities. -/
structure AggregatedActivity (κ : Type) (α : Type) where
  group : κ
  activities : List α
deriving DecidableEq, Repr

/-- Modelled from the spec: the `AggregatedActivity(group)` constructor
creates a bucket for `group` with no activities yet. -/
def AggregatedActivity.create (g : κ) : AggregatedActivity κ α :=
  ⟨g, []⟩

/-- Modelled from the spec: `AggregatedActivity.append` appends one
activity at the end of the bucket's activity sequence (append-only,
insertion-ordered). -/
def AggregatedActivity.push (b : AggregatedActivity κ α) (a : α) :
    AggregatedActivity κ α :=
  { b with activities := b.activities ++ [a] }

/-- The raw activity record (external entity): an identifier and a
timestamp, the two fields the reference strategies read. -/
structure Activity where
  object_id : Nat
  time : Nat
deriving DecidableEq, Repr

namespace BaseAggregator

/-- `BaseAggregator.get_group`: the abstract strategy raises
`ValueError('not implemented')` for every activity.  Raising is modelled
by `Except.error` carrying the exception's message. -/
def get_group (_activity : α) : Except String κ :=
  Except.error "not implemented"

/-- `BaseAggregator.rank`: the abstract strategy raises
`ValueError('not implemented')` for every input sequence. -/
def rank (_aggregated_activities : List (AggregatedActivity κ α)) :
    Except String (List (AggregatedActivity κ α)) :=
  Except.error "not implemented"

/-- `dict([(a.group, a) for a in aggregated])` as a lookup function:
Python dict construction lets a later pair with the same key overwrite
an earlier one, so lookup returns the last bucket with the key. -/
def current_activities_dict [DecidableEq κ] :
    List (AggregatedActivity κ α) → κ → Option (AggregatedActivity κ α)
  | [], _ => none
  | b :: rest, k =>
    match current_activities_dict rest k with
    | some r => some r
    | none => if b.group = k then some b else none

/-- The merged bucket built in `merge`'s else-branch:
`new_aggregated = deepcopy(current_aggregated)` (on the value level a
copy is the same value) followed by appending each activity of the
new-generation bucket.  Written as the source's append loop. -/
def mergedOf (o b : AggregatedActivity κ α) : AggregatedActivity κ α :=
  b.activities.foldl AggregatedActivity.push o

/-- The loop of `BaseAggregator.merge` over `new_aggregated`: a bucket
whose group is absent from the old lookup goes to `new`, otherwise the
pair `(current_aggregated, merged copy)` goes to `changed`; both lists
keep the iteration order. -/
def mergeGo [DecidableEq κ] (dict : κ → Option (AggregatedActivity κ α)) :
    List (AggregatedActivity κ α) →
      List (AggregatedActivity κ α) ×
        List (AggregatedActivity κ α × AggregatedActivity κ α)
  | [] => ([], [])
  | b :: rest =>
    match dict b.group with
    | none => ((mergeGo dict rest).1.cons b, (mergeGo dict rest).2)
    | some o => ((mergeGo dict rest).1, (mergeGo dict rest).2.cons (o, mergedOf o b))

/-- `BaseAggregator.merge(aggregated, new_aggregated)`: builds the
last-write-wins lookup over the old generation, partitions the new
generation into genuinely new buckets and `(old, merged)` pairs, and
returns `new, changed, []`. -/
def merge [DecidableEq κ] (aggregated new_aggregated : List (AggregatedActivity κ α)) :
    List (AggregatedActivity κ α) ×
      List (AggregatedActivity κ α × AggregatedActivity κ α) ×
        List (AggregatedActivity κ α) :=
  ((mergeGo (current_activities_dict aggregated) new_aggregated).1,
   (mergeGo (current_activities_dict aggregated) new_aggregated).2,
   [])

end BaseAggregator

end Feedly

namespace Feedly

/-- A generation of buckets has pairwise-distinct group keys (the spec's
§3 invariant for the output of one aggregate pass). -/
def nodupKeys (l : List (AggregatedActivity κ α)) : Prop :=
  (l.map AggregatedActivity.group).Nodup

instance [DecidableEq κ] (l : List (AggregatedActivity κ α)) :
    Decidable (nodupKeys l) := by
  unfold nodupKeys; infer_instance

end Feedly

namespace Feedly.BaseAggregator

/-- One iteration of the `group_activities` loop on the aggregation
dict, modelled as an insertion-ordered association list (a Python dict
keeps first-insertion key order): if `group` is absent a fresh bucket
`AggregatedActivity(group)` is inserted at the end, and the activity is
appended to the bucket stored under `group`. -/
def dictAppend [DecidableEq κ] :
    List (κ × AggregatedActivity κ α) → κ → α →
      List (κ × AggregatedActivity κ α)
  | [], k, a => [(k, AggregatedActivity.push (AggregatedActivity.create k) a)]
  | (k', b) :: rest, k, a =>
    if k' = k then (k', b.push a) :: rest
    else (k', b) :: dictAppend rest k a

/-- `BaseAggregator.group_activities`: folds the input activities into
the aggregation dict, computing each activity's key with the pluggable
`get_group`. -/
def group_activities [DecidableEq κ] (get_group : α → κ)
    (activities : List α) : List (κ × AggregatedActivity κ α) :=
  activities.foldl (fun d a => dictAppend d (get_group a) a) []

/-- Key lookup in the aggregation dict (keys are unique there, so the
first match is the only one). -/
def lookupKey [DecidableEq κ] :
    List (κ × AggregatedActivity κ α) → κ → Option (AggregatedActivity κ α)
  | [], _ => none
  | (k', b) :: rest, k => if k' = k then some b else lookupKey rest k

/-- `aggregate_dict.values()`: the buckets of the aggregation dict in
its (insertion) order. -/
def values (d : List (κ × AggregatedActivity κ α)) :
    List (AggregatedActivity κ α) :=
  d.map Prod.snd

end Feedly.BaseAggregator

namespace Feedly.ModulusAggregator

/-- `ModulusAggregator.rank`'s `sort_key`: the maximum of the bucket's
activity ids.  Python's `max` raises `ValueError` on an empty sequence,
hence the `Option`. -/
def sort_key (b : AggregatedActivity κ Activity) : Option Nat :=
  (b.activities.map Activity.object_id).max?

/-- `ModulusAggregator.rank`: sorts the buckets in place, ascending and
stably, by `sort_key`; if any bucket has no activities the key function
raises (modelled as `none`). -/
def rank (aggregated_activities : List (AggregatedActivity κ Activity)) :
    Option (List (AggregatedActivity κ Activity)) :=
  if aggregated_activities.all (fun b => (sort_key b).isSome) then
    some (aggregated_activities.mergeSort
      (fun x y => (sort_key x).getD 0 ≤ (sort_key y).getD 0))
  else none

/-- `ModulusAggregator.get_group`: `activity.object_id % self.modulus`
(the constructor default for the modulus is 3). -/
def get_group (modulus : Nat) (activity : Activity) : Nat :=
  activity.object_id % modulus

/-- `BaseAggregator.aggregate` instantiated with the modulus strategy:
group the activities, take the dict's values, rank them. -/
def aggregate (modulus : Nat) (activities : List Activity) :
    Option (List (AggregatedActivity Nat Activity)) :=
  rank (BaseAggregator.values
    (BaseAggregator.group_activities (get_group modulus) activities))

end Feedly.ModulusAggregator

namespace Feedly.RecentVerbAggregator

/-- Modelled from the spec: the bucket's `updated_at` used by
`RecentVerbAggregator.rank` is a derived attribute, the most recent
(maximum) timestamp among the bucket's activities; undefined (raises)
for an empty bucket. -/
def updated_at (b : AggregatedActivity κ Activity) : Option Nat :=
  (b.activities.map Activity.time).max?

/-- `RecentVerbAggregator.rank`: sorts the buckets stably by
`updated_at` with `reverse=True` (descending); a bucket without an
`updated_at` value makes the key function raise (modelled as `none`). -/
def rank (aggregated_activities : List (AggregatedActivity κ Activity)) :
    Option (List (AggregatedActivity κ Activity)) :=
  if aggregated_activities.all (fun b => (updated_at b).isSome) then
    some (aggregated_activities.mergeSort
      (fun x y => (updated_at y).getD 0 ≤ (updated_at x).getD 0))
  else none

end Feedly.RecentVerbAggregator

namespace Feedly

/-- A heap of bucket objects addressed by natural-number references,
used to model Python object identity and in-place mutation for the
merge-non-mutation property.  `mem` is the content of every cell,
`next` the first never-allocated reference. -/
structure Heap (κ α : Type) where
  mem : Nat → AggregatedActivity κ α
  next : Nat

/-- Allocate a fresh cell holding bucket `b` (models `deepcopy`
producing a brand-new object) and return its reference. -/
def Heap.alloc (h : Heap κ α) (b : AggregatedActivity κ α) :
    Heap κ α × Nat :=
  (⟨fun i => if i = h.next then b else h.mem i, h.next + 1⟩, h.next)

/-- Overwrite the cell at reference `r` (in-place mutation). -/
def Heap.setRef (h : Heap κ α) (r : Nat) (b : AggregatedActivity κ α) :
    Heap κ α :=
  ⟨fun i => if i = r then b else h.mem i, h.next⟩

/-- `new_aggregated.append(activity)`: mutate the bucket object at `r`
by appending one activity. -/
def Heap.pushAt (h : Heap κ α) (r : Nat) (a : α) : Heap κ α :=
  h.setRef r ((h.mem r).push a)

/-- The merge's append loop: append each activity in turn onto the
bucket object at `r`. -/
def Heap.pushAll (h : Heap κ α) (r : Nat) (as : List α) : Heap κ α :=
  as.foldl (fun h' a => h'.pushAt r a) h

/-- `dict([(a.group, a) for a in aggregated])` over bucket references:
maps a group key to the last old-generation reference whose bucket
carries that key (Python's last-write-wins dict construction). -/
def heapDict [DecidableEq κ] (h : Heap κ α) :
    List Nat → κ → Option Nat
  | [], _ => none
  | r :: rest, k =>
    match heapDict h rest k with
    | some r' => some r'
    | none => if (h.mem r).group = k then some r else none

/-- The loop of `BaseAggregator.merge` on the heap model: for each
new-generation reference, either record it as new, or `deepcopy` the
matching old bucket into a fresh cell, mutate that cell by appending the
new bucket's activities, and record the `(old ref, copy ref)` pair. -/
def mergeSGo [DecidableEq κ] (dict : κ → Option Nat) :
    Heap κ α → List Nat → Heap κ α × List Nat × List (Nat × Nat)
  | h, [] => (h, [], [])
  | h, r :: rest =>
    match dict (h.mem r).group with
    | none =>
      ((mergeSGo dict h rest).1, r :: (mergeSGo dict h rest).2.1,
        (mergeSGo dict h rest).2.2)
    | some ro =>
      let h2 := Heap.pushAll (h.alloc (h.mem ro)).1 (h.alloc (h.mem ro)).2
        (h.mem r).activities
      ((mergeSGo dict h2 rest).1, (mergeSGo dict h2 rest).2.1,
        (ro, (h.alloc (h.mem ro)).2) :: (mergeSGo dict h2 rest).2.2)

/-- `BaseAggregator.merge` on the heap model: build the old-generation
lookup once, loop over the new generation, return `new, changed, []`
(as reference lists) together with the final heap. -/
def mergeS [DecidableEq κ] (h : Heap κ α) (old new : List Nat) :
    Heap κ α × List Nat × List (Nat × Nat) × List Nat :=
  ((mergeSGo (heapDict h old) h new).1,
   (mergeSGo (heapDict h old) h new).2.1,
   (mergeSGo (heapDict h old) h new).2.2,
   [])

/-- A concrete heap for exercising the heap-model merge: cell 0 holds an
old-generation bucket for key 0, cell 1 a new-generation bucket for the
same key. -/
def exampleHeap : Heap Nat Nat :=
  ⟨fun i => if i = 0 then ⟨0, [1]⟩ else if i = 1 then ⟨0, [2]⟩ else ⟨99, []⟩, 2⟩

end Feedly

set_option linter.unusedSectionVars false

namespace Feedly.BaseAggregator

variable {κ α : Type} [DecidableEq κ]

theorem mergedOf_eq (o b : AggregatedActivity κ α) :
    mergedOf o b = ⟨o.group, o.activities ++ b.activities⟩ := by
  unfold mergedOf
  generalize b.activities = as
  induction as generalizing o with
  | nil => simp [AggregatedActivity.push]
  | cons a as ih =>
      simp only [List.foldl_cons, ih]
      simp [AggregatedActivity.push, List.append_assoc]

theorem current_activities_dict_eq_some
    {l : List (AggregatedActivity κ α)} {k : κ} {r : AggregatedActivity κ α}
    (h : current_activities_dict l k = some r) : r ∈ l ∧ r.group = k := by
  induction l with
  | nil => simp [current_activities_dict] at h
  | cons b rest ih =>
      simp only [current_activities_dict] at h
      rcases hr : current_activities_dict rest k with _ | r'
      · rw [hr] at h
        simp only at h
        by_cases hg : b.group = k
        · simp [hg] at h
          exact ⟨by simp [← h], by rw [← h]; exact hg⟩
        · simp [hg] at h
      · rw [hr] at h
        simp only [Option.some.injEq] at h
        rcases ih (h ▸ hr) with ⟨hmem, hk⟩
        exact ⟨List.mem_cons_of_mem _ hmem, hk⟩

theorem current_activities_dict_eq_none
    {l : List (AggregatedActivity κ α)} {k : κ}
    (h : ∀ b ∈ l, b.group ≠ k) : current_activities_dict l k = none := by
  induction l with
  | nil => rfl
  | cons b rest ih =>
      simp only [current_activities_dict]
      rw [ih fun x hx => h x (List.mem_cons_of_mem _ hx)]
      simp [h b (List.mem_cons_self _ _)]

theorem current_activities_dict_self
    {l : List (AggregatedActivity κ α)} (hnd : nodupKeys l)
    {o : AggregatedActivity κ α} (ho : o ∈ l) :
    current_activities_dict l (o.group) = some o := by
  induction l with
  | nil => simp at ho
  | cons b rest ih =>
      unfold nodupKeys at hnd
      simp only [List.map_cons, List.nodup_cons] at hnd
      rcases List.mem_cons.1 ho with rfl | hmem
      · have : current_activities_dict rest o.group = none := by
          apply current_activities_dict_eq_none
          intro x hx hgx
          exact hnd.1 (hgx ▸ List.mem_map_of_mem AggregatedActivity.group hx)
        simp [current_activities_dict, this]
      · have := ih hnd.2 hmem
        simp [current_activities_dict, this]

theorem mergeGo_eq (dict : κ → Option (AggregatedActivity κ α))
    (l : List (AggregatedActivity κ α)) :
    mergeGo dict l =
      (l.filter (fun b => (dict b.group).isNone),
       l.filterMap (fun b => (dict b.group).map (fun o => (o, mergedOf o b)))) := by
  induction l with
  | nil => rfl
  | cons b rest ih =>
      rcases hd : dict b.group with _ | o <;>
        simp [mergeGo, hd, ih, List.filter_cons, List.filterMap_cons]

theorem mergeGo_length (dict : κ → Option (AggregatedActivity κ α))
    (l : List (AggregatedActivity κ α)) :
    (mergeGo dict l).1.length + (mergeGo dict l).2.length = l.length := by
  induction l with
  | nil => rfl
  | cons b rest ih =>
      rcases hd : dict b.group with _ | o <;>
        simp [mergeGo, hd] <;> omega

theorem filter_group_eq_singleton
    {l : List (AggregatedActivity κ α)} (hnd : nodupKeys l)
    {b : AggregatedActivity κ α} (hb : b ∈ l) :
    l.filter (fun x => x.group = b.group) = [b] := by
  induction l with
  | nil => simp at hb
  | cons c rest ih =>
      unfold nodupKeys at hnd
      simp only [List.map_cons, List.nodup_cons] at hnd
      rcases List.mem_cons.1 hb with rfl | hmem
      · rw [List.filter_cons_of_pos (by simp)]
        have : rest.filter (fun x => x.group = b.group) = [] := by
          rw [List.filter_eq_nil_iff]
          intro x hx
          simp only [decide_eq_true_eq]
          intro hgx
          exact hnd.1 (hgx ▸ List.mem_map_of_mem AggregatedActivity.group hx)
        rw [this]
      · have hne : ¬(c.group = b.group) := by
          intro hgc
          exact hnd.1 (hgc ▸ List.mem_map_of_mem AggregatedActivity.group hmem)
        rw [List.filter_cons_of_neg (by simpa using hne)]
        exact ih hnd.2 hmem

theorem filter_filterMap_by_group
    {dict : κ → Option (AggregatedActivity κ α)}
    (hdict : ∀ k r, dict k = some r → r.group = k)
    (l : List (AggregatedActivity κ α)) (k : κ) :
    (l.filterMap (fun b => (dict b.group).map
        (fun o => (o, mergedOf o b)))).filter (fun p => p.1.group = k) =
      (l.filter (fun b => b.group = k)).filterMap
        (fun b => (dict b.group).map (fun o => (o, mergedOf o b))) := by
  induction l with
  | nil => rfl
  | cons b rest ih =>
      rcases hd : dict b.group with _ | o
      · rw [List.filterMap_cons_none (by rw [hd]; rfl)]
        by_cases hbk : b.group = k
        · rw [List.filter_cons_of_pos (by simp [hbk]),
            List.filterMap_cons_none (by rw [hd]; rfl)]
          exact ih
        · rw [List.filter_cons_of_neg (by simp [hbk])]
          exact ih
      · have hgo : o.group = b.group := hdict _ _ hd
        rw [List.filterMap_cons_some (by rw [hd]; rfl)]
        by_cases hbk : b.group = k
        · rw [List.filter_cons_of_pos (by simp [hgo, hbk]),
            List.filter_cons_of_pos (by simp [hbk]),
            List.filterMap_cons_some (by rw [hd]; rfl), ih]
        · rw [List.filter_cons_of_neg (by simp [hgo, hbk]),
            List.filter_cons_of_neg (by simp [hbk])]
          exact ih

theorem lookupKey_dictAppend_self (d : List (κ × AggregatedActivity κ α))
    (k : κ) (a : α) :
    lookupKey (dictAppend d k a) k =
      some (match lookupKey d k with
        | none => AggregatedActivity.push (AggregatedActivity.create k) a
        | some b => b.push a) := by
  induction d with
  | nil => simp [dictAppend, lookupKey]
  | cons p rest ih =>
      obtain ⟨k', b⟩ := p
      by_cases hk : k' = k
      · simp [dictAppend, lookupKey, hk]
      · simp [dictAppend, lookupKey, hk, ih]

theorem lookupKey_dictAppend_ne (d : List (κ × AggregatedActivity κ α))
    {k k' : κ} (h : k' ≠ k) (a : α) :
    lookupKey (dictAppend d k a) k' = lookupKey d k' := by
  have h' : ¬(k = k') := fun hh => h hh.symm
  induction d with
  | nil => simp [dictAppend, lookupKey, h']
  | cons p rest ih =>
      obtain ⟨k'', b⟩ := p
      by_cases hk : k'' = k
      · subst hk
        have h2 : ¬(k'' = k') := fun hh => h hh.symm
        simp [dictAppend, lookupKey, h2]
      · by_cases hk' : k'' = k'
        · subst hk'
          simp [dictAppend, lookupKey, hk]
        · simp [dictAppend, lookupKey, hk, hk', ih]

theorem keys_dictAppend (d : List (κ × AggregatedActivity κ α))
    (k : κ) (a : α) :
    (dictAppend d k a).map Prod.fst =
      if k ∈ d.map Prod.fst then d.map Prod.fst
      else d.map Prod.fst ++ [k] := by
  induction d with
  | nil => simp [dictAppend]
  | cons p rest ih =>
      obtain ⟨k', b⟩ := p
      by_cases hk : k' = k
      · simp [dictAppend, hk]
      · have hne : ¬(k = k') := fun hh => hk hh.symm
        by_cases hmem : k ∈ rest.map Prod.fst
        · simp [dictAppend, hk, ih, hmem, hne]
        · simp [dictAppend, hk, ih, hmem, hne]

theorem nodup_keys_dictAppend {d : List (κ × AggregatedActivity κ α)}
    (hnd : (d.map Prod.fst).Nodup) (k : κ) (a : α) :
    ((dictAppend d k a).map Prod.fst).Nodup := by
  rw [keys_dictAppend]
  by_cases hmem : k ∈ d.map Prod.fst
  · simpa [hmem] using hnd
  · rw [if_neg hmem]
    refine List.Nodup.append hnd (List.nodup_singleton k)
      (fun x hx hxk => ?_)
    rw [List.mem_singleton] at hxk
    exact hmem (hxk ▸ hx)

theorem group_eq_key_dictAppend {d : List (κ × AggregatedActivity κ α)}
    (hd : ∀ p ∈ d, p.2.group = p.1) (k : κ) (a : α) :
    ∀ p ∈ dictAppend d k a, p.2.group = p.1 := by
  induction d with
  | nil =>
      intro p hp
      simp only [dictAppend, List.mem_singleton] at hp
      subst hp
      rfl
  | cons q rest ih =>
      obtain ⟨k', b⟩ := q
      intro p hp
      by_cases hk : k' = k
      · subst hk
        simp only [dictAppend, if_pos rfl] at hp
        rcases List.mem_cons.1 hp with rfl | hmem
        · have hb := hd (k', b) (List.mem_cons_self _ _)
          simpa [AggregatedActivity.push] using hb
        · exact hd p (List.mem_cons_of_mem _ hmem)
      · simp only [dictAppend, if_neg hk] at hp
        rcases List.mem_cons.1 hp with rfl | hmem
        · exact hd (k', b) (List.mem_cons_self _ _)
        · exact ih (fun q hq => hd q (List.mem_cons_of_mem _ hq)) p hmem

theorem flatten_dictAppend (d : List (κ × AggregatedActivity κ α))
    (k : κ) (a : α) :
    ((dictAppend d k a).map (fun p => p.2.activities)).flatten.Perm
      ((d.map (fun p => p.2.activities)).flatten ++ [a]) := by
  induction d with
  | nil => simp [dictAppend, AggregatedActivity.push, AggregatedActivity.create]
  | cons q rest ih =>
      obtain ⟨k', b⟩ := q
      by_cases hk : k' = k
      · subst hk
        rw [show dictAppend ((k', b) :: rest) k' a = (k', b.push a) :: rest from by
          simp [dictAppend]]
        simp only [List.map_cons, List.flatten_cons,
          AggregatedActivity.push, List.append_assoc]
        exact List.Perm.append_left _ List.perm_append_comm
      · simp only [dictAppend, if_neg hk, List.map_cons, List.flatten_cons,
          List.append_assoc]
        exact List.Perm.append_left _ ih

theorem lookupKey_foldl (gg : α → κ) (acts : List α)
    (d : List (κ × AggregatedActivity κ α)) (k : κ) :
    lookupKey (acts.foldl (fun d' a => dictAppend d' (gg a) a) d) k =
      match lookupKey d k with
      | some b => some ⟨b.group, b.activities ++ acts.filter (fun a => gg a = k)⟩
      | none =>
        if (acts.filter (fun a => gg a = k)).isEmpty then none
        else some ⟨k, acts.filter (fun a => gg a = k)⟩ := by
  induction acts generalizing d with
  | nil =>
      rcases hb : lookupKey d k with _ | b
      · simp [hb]
      · simp [hb]
  | cons a as ih =>
      simp only [List.foldl_cons]
      rw [ih]
      by_cases hak : gg a = k
      · rw [List.filter_cons_of_pos (by simp [hak])]
        subst hak
        rw [lookupKey_dictAppend_self]
        rcases hb : lookupKey d (gg a) with _ | b
        · simp [AggregatedActivity.push, AggregatedActivity.create]
        · simp [AggregatedActivity.push, List.append_assoc]
      · rw [List.filter_cons_of_neg (by simp [hak]),
          lookupKey_dictAppend_ne d (fun hh => hak hh.symm)]

theorem nodup_keys_foldl (gg : α → κ) (acts : List α)
    {d : List (κ × AggregatedActivity κ α)} (hnd : (d.map Prod.fst).Nodup) :
    ((acts.foldl (fun d' a => dictAppend d' (gg a) a) d).map Prod.fst).Nodup := by
  induction acts generalizing d with
  | nil => exact hnd
  | cons a as ih => exact ih (nodup_keys_dictAppend hnd _ _)

theorem group_eq_key_foldl (gg : α → κ) (acts : List α)
    {d : List (κ × AggregatedActivity κ α)} (hd : ∀ p ∈ d, p.2.group = p.1) :
    ∀ p ∈ acts.foldl (fun d' a => dictAppend d' (gg a) a) d,
      p.2.group = p.1 := by
  induction acts generalizing d with
  | nil => exact hd
  | cons a as ih => exact ih (group_eq_key_dictAppend hd _ _)

theorem flatten_foldl (gg : α → κ) (acts : List α)
    (d : List (κ × AggregatedActivity κ α)) :
    (((acts.foldl (fun d' a => dictAppend d' (gg a) a) d).map
        (fun p => p.2.activities)).flatten).Perm
      ((d.map (fun p => p.2.activities)).flatten ++ acts) := by
  induction acts generalizing d with
  | nil => simp
  | cons a as ih =>
      simp only [List.foldl_cons]
      refine (ih (dictAppend d (gg a) a)).trans ?_
      have h1 := flatten_dictAppend d (gg a) a
      refine (List.Perm.append_right as h1).trans ?_
      simp [List.append_assoc]

theorem lookupKey_of_mem {d : List (κ × AggregatedActivity κ α)}
    (hnd : (d.map Prod.fst).Nodup) {p : κ × AggregatedActivity κ α}
    (hp : p ∈ d) : lookupKey d p.1 = some p.2 := by
  induction d with
  | nil => simp at hp
  | cons q rest ih =>
      obtain ⟨k', b⟩ := q
      simp only [List.map_cons, List.nodup_cons] at hnd
      rcases List.mem_cons.1 hp with rfl | hmem
      · simp [lookupKey]
      · have hne : ¬(k' = p.1) := by
          intro hh
          exact hnd.1 (hh ▸ (List.mem_map_of_mem Prod.fst hmem))
        simp only [lookupKey, if_neg hne]
        exact ih hnd.2 hmem

/-- The full characterization of one grouping pass: the bucket stored
under key `k` is exactly the input's subsequence of activities whose
group is `k` (and there is no bucket when that subsequence is empty). -/
theorem lookupKey_group_activities (gg : α → κ) (acts : List α) (k : κ) :
    lookupKey (group_activities gg acts) k =
      if (acts.filter (fun a => gg a = k)).isEmpty then none
      else some ⟨k, acts.filter (fun a => gg a = k)⟩ := by
  unfold group_activities
  rw [lookupKey_foldl]
  rfl

/-- A bucket produced by one grouping pass is exactly the filter of the
input on its key, and that filter is non-empty. -/
theorem bucket_eq_filter (gg : α → κ) (acts : List α)
    {p : κ × AggregatedActivity κ α} (hp : p ∈ group_activities gg acts) :
    p.2 = ⟨p.1, acts.filter (fun a => gg a = p.1)⟩ ∧
      (acts.filter (fun a => gg a = p.1)).isEmpty = false := by
  have hnd : ((group_activities gg acts).map Prod.fst).Nodup := by
    unfold group_activities
    exact nodup_keys_foldl gg acts (by simp)
  have hl := lookupKey_of_mem hnd hp
  rw [lookupKey_group_activities] at hl
  by_cases he : (acts.filter (fun a => gg a = p.1)).isEmpty
  · rw [if_pos he] at hl
    exact absurd hl (by simp)
  · rw [if_neg he] at hl
    simp only [Option.some.injEq] at hl
    exact ⟨hl.symm, Bool.not_eq_true _ ▸ he⟩

/-- Buckets coming out of a grouping pass are never empty: a bucket is
created only when an activity is about to be appended to it. -/
theorem group_activities_nonempty (gg : α → κ) (acts : List α) :
    ∀ p ∈ group_activities gg acts, p.2.activities ≠ [] := by
  intro p hp
  obtain ⟨h1, h2⟩ := bucket_eq_filter gg acts hp
  rw [show p.2.activities = acts.filter (fun a => gg a = p.1) from by rw [h1]]
  intro hnil
  rw [hnil] at h2
  simp at h2

end Feedly.BaseAggregator

namespace Feedly.ModulusAggregator

theorem sort_key_isSome {κ : Type} {b : AggregatedActivity κ Activity}
    (h : b.activities ≠ []) : (sort_key b).isSome = true := by
  unfold sort_key
  cases hb : b.activities with
  | nil => exact absurd hb h
  | cons a as => simp [hb, List.max?_cons']

end Feedly.ModulusAggregator

namespace Feedly.RecentVerbAggregator

theorem updated_at_isSome {κ : Type} {b : AggregatedActivity κ Activity}
    (h : b.activities ≠ []) : (updated_at b).isSome = true := by
  unfold updated_at
  cases hb : b.activities with
  | nil => exact absurd hb h
  | cons a as => simp [hb, List.max?_cons']

end Feedly.RecentVerbAggregator

namespace Feedly

variable {κ α : Type} [DecidableEq κ]

theorem alloc_fst_next (h : Heap κ α) (b : AggregatedActivity κ α) :
    (h.alloc b).1.next = h.next + 1 :=
  rfl

theorem alloc_fst_mem_ne (h : Heap κ α) (b : AggregatedActivity κ α)
    {i : Nat} (hne : i ≠ h.next) : (h.alloc b).1.mem i = h.mem i := by
  simp [Heap.alloc, hne]

theorem pushAll_next (h : Heap κ α) (r : Nat) (as : List α) :
    (h.pushAll r as).next = h.next := by
  induction as generalizing h with
  | nil => rfl
  | cons a as ih => exact ih (h.pushAt r a)

theorem pushAll_mem_ne (h : Heap κ α) (r : Nat) (as : List α)
    {i : Nat} (hne : i ≠ r) : (h.pushAll r as).mem i = h.mem i := by
  induction as generalizing h with
  | nil => rfl
  | cons a as ih =>
      have hstep : (h.pushAt r a).mem i = h.mem i := by
        simp [Heap.pushAt, Heap.setRef, hne]
      exact (ih (h.pushAt r a)).trans hstep

theorem mergeSGo_next_le (dict : κ → Option Nat) (l : List Nat)
    (h : Heap κ α) : h.next ≤ (mergeSGo dict h l).1.next := by
  induction l generalizing h with
  | nil => exact Nat.le_refl _
  | cons r rest ih =>
      rcases hd : dict ((h.mem r).group) with _ | ro
      · simp only [mergeSGo, hd]
        exact ih h
      · simp only [mergeSGo, hd]
        refine Nat.le_trans ?_ (ih _)
        rw [pushAll_next, alloc_fst_next]
        exact Nat.le_succ _

theorem mergeSGo_frame (dict : κ → Option Nat) (l : List Nat)
    (h : Heap κ α) {i : Nat} (hi : i < h.next) :
    (mergeSGo dict h l).1.mem i = h.mem i := by
  induction l generalizing h with
  | nil => rfl
  | cons r rest ih =>
      rcases hd : dict ((h.mem r).group) with _ | ro
      · simp only [mergeSGo, hd]
        exact ih h hi
      · simp only [mergeSGo, hd]
        have h2 : (Heap.pushAll (h.alloc (h.mem ro)).1 (h.alloc (h.mem ro)).2
            (h.mem r).activities).mem i = h.mem i := by
          rw [pushAll_mem_ne _ _ _
              (show i ≠ (h.alloc (h.mem ro)).2 from Nat.ne_of_lt hi),
            alloc_fst_mem_ne _ _ (Nat.ne_of_lt hi)]
        have hnext : i < (Heap.pushAll (h.alloc (h.mem ro)).1
            (h.alloc (h.mem ro)).2 (h.mem r).activities).next := by
          rw [pushAll_next, alloc_fst_next]
          exact Nat.lt_succ_of_lt hi
        rw [ih _ hnext, h2]

theorem mergeSGo_changed (dict : κ → Option Nat) (l : List Nat)
    (h : Heap κ α) :
    ∀ p ∈ (mergeSGo dict h l).2.2,
      (∃ k, dict k = some p.1) ∧ h.next ≤ p.2 := by
  induction l generalizing h with
  | nil => intro p hp; simp [mergeSGo] at hp
  | cons r rest ih =>
      intro p hp
      rcases hd : dict ((h.mem r).group) with _ | ro
      · simp only [mergeSGo, hd] at hp
        exact ih h p hp
      · simp only [mergeSGo, hd, List.mem_cons] at hp
        rcases hp with rfl | hp
        · exact ⟨⟨(h.mem r).group, hd⟩, Nat.le_refl _⟩
        · obtain ⟨hk, hle⟩ := ih _ p hp
          refine ⟨hk, Nat.le_trans ?_ hle⟩
          rw [pushAll_next, alloc_fst_next]
          exact Nat.le_succ _

theorem heapDict_mem (h : Heap κ α) (old : List Nat) (k : κ) (r : Nat)
    (hr : heapDict h old k = some r) : r ∈ old := by
  induction old with
  | nil => simp [heapDict] at hr
  | cons r' rest ih =>
      simp only [heapDict] at hr
      rcases hd : heapDict h rest k with _ | r''
      · rw [hd] at hr
        simp only at hr
        by_cases hg : (h.mem r').group = k
        · rw [if_pos hg] at hr
          simp only [Option.some.injEq] at hr
          exact List.mem_cons.2 (Or.inl hr.symm)
        · simp [hg] at hr
      · rw [hd] at hr
        simp only [Option.some.injEq] at hr
        exact List.mem_cons_of_mem _ (ih (hr ▸ hd))

end Feedly

namespace Feedly.Claims

open Feedly BaseAggregator

/-- C4: for every input, the third component of `merge`'s result (the
reserved `removed` slot) is the empty list, old keys missing from the
new generation notwithstanding: the source returns a literal `[]`. -/
theorem merge_removed_empty {κ α : Type} [DecidableEq κ]
    (old new : List (AggregatedActivity κ α)) :
    (merge old new).2.2 = ([] : List (AggregatedActivity κ α)) :=
  rfl

/-- C8: invoking the base strategy's `get_group` on any activity, or its
`rank` on any sequence of aggregated activities, fails unconditionally:
the source raises `ValueError('not implemented')` (a programming-contract
violation), modelled as `Except.error "not implemented"`, for every
input. -/
theorem base_not_implemented {α κ : Type} :
    (∀ a : α, (BaseAggregator.get_group a : Except String κ) =
        Except.error "not implemented") ∧
      (∀ l : List (AggregatedActivity κ α),
        BaseAggregator.rank l = Except.error "not implemented") :=
  ⟨fun _ => rfl, fun _ => rfl⟩

/-- C1: when the old and the new generation each have pairwise-distinct
group keys, then for each group key present in both generations (an old
bucket `o` and a new bucket `b` sharing it) `merge`'s `changed` list
holds exactly one pair for that key, namely `o` paired with a bucket
whose activities are `o`'s followed by `b`'s, in order, nothing dropped
or reordered. -/
theorem merge_append_only {κ α : Type} [DecidableEq κ]
    (old new : List (AggregatedActivity κ α))
    (hold : nodupKeys old) (hnew : nodupKeys new)
    (o b : AggregatedActivity κ α)
    (ho : o ∈ old) (hb : b ∈ new) (hk : b.group = o.group) :
    ((merge old new).2.1).filter (fun p => p.1.group = o.group) =
      [(o, ⟨o.group, o.activities ++ b.activities⟩)] := by
  have hchanged : (merge old new).2.1 =
      new.filterMap (fun x => (current_activities_dict old x.group).map
        (fun y => (y, mergedOf y x))) := by
    unfold merge
    rw [mergeGo_eq]
  rw [hchanged,
    filter_filterMap_by_group
      (fun k r hr => (current_activities_dict_eq_some hr).2) new o.group]
  have hsingle : new.filter (fun x => x.group = o.group) = [b] := by
    rw [← hk]
    exact filter_group_eq_singleton hnew hb
  rw [hsingle, List.filterMap_cons, hk,
    current_activities_dict_self hold ho]
  simp [mergedOf_eq]

/-- Witness for C1 at a concrete input: old generation with keys 0 and
1, new generation with keys 1 and 2; the shared key is 1. -/
theorem merge_append_only_witness :
    nodupKeys [AggregatedActivity.mk (0 : Nat) [(10 : Nat)],
        AggregatedActivity.mk 1 [11]] ∧
      nodupKeys [AggregatedActivity.mk (1 : Nat) [(12 : Nat)],
        AggregatedActivity.mk 2 [13]] ∧
      AggregatedActivity.mk (1 : Nat) [(11 : Nat)] ∈
        [AggregatedActivity.mk (0 : Nat) [(10 : Nat)],
          AggregatedActivity.mk 1 [11]] ∧
      AggregatedActivity.mk (1 : Nat) [(12 : Nat)] ∈
        [AggregatedActivity.mk (1 : Nat) [(12 : Nat)],
          AggregatedActivity.mk 2 [13]] ∧
      (AggregatedActivity.mk (1 : Nat) [(12 : Nat)]).group =
        (AggregatedActivity.mk (1 : Nat) [(11 : Nat)]).group ∧
      ((merge [AggregatedActivity.mk (0 : Nat) [(10 : Nat)],
            AggregatedActivity.mk 1 [11]]
          [AggregatedActivity.mk (1 : Nat) [(12 : Nat)],
            AggregatedActivity.mk 2 [13]]).2.1).filter
          (fun p => p.1.group = (AggregatedActivity.mk (1 : Nat)
            [(11 : Nat)]).group) =
        [(AggregatedActivity.mk (1 : Nat) [(11 : Nat)],
          ⟨(AggregatedActivity.mk (1 : Nat) [(11 : Nat)]).group,
            (AggregatedActivity.mk (1 : Nat) [(11 : Nat)]).activities ++
              (AggregatedActivity.mk (1 : Nat)
                [(12 : Nat)]).activities⟩)] :=
  ⟨by decide, by decide, by decide, by decide, by decide,
    merge_append_only _ _ (by decide) (by decide) _ _ (by decide)
      (by decide) (by decide)⟩

/-- Counterexample to C3 as stated: with `old = [bucket 0 ↦ [1]]` and
`new = [bucket 0 ↦ [2]]`, the new bucket `⟨0, [2]⟩` appears neither in
`new_buckets` nor as the second element of any pair of `changed_pairs`:
the second element is the merged copy `⟨0, [1, 2]⟩`, not the new bucket
itself. -/
theorem merge_totality_cex :
    (AggregatedActivity.mk (0 : Nat) [(2 : Nat)] ∉
        (merge [AggregatedActivity.mk (0 : Nat) [(1 : Nat)]]
          [AggregatedActivity.mk (0 : Nat) [(2 : Nat)]]).1) ∧
      ∀ p ∈ (merge [AggregatedActivity.mk (0 : Nat) [(1 : Nat)]]
          [AggregatedActivity.mk (0 : Nat) [(2 : Nat)]]).2.1,
        p.2 ≠ AggregatedActivity.mk (0 : Nat) [(2 : Nat)] := by
  decide

/-- C3 (amended): `new_buckets` is exactly the subsequence of `new`
whose keys miss the old lookup (so `new`'s relative order is
preserved), and each bucket of `new` whose key is present gives rise to
exactly one pair of `changed_pairs` — the matching old bucket paired
with its merged extension (not with the new bucket itself); every
bucket of `new` is accounted for by exactly one of the two outputs:
their lengths sum to `new`'s. -/
theorem merge_totality {κ α : Type} [DecidableEq κ]
    (old new : List (AggregatedActivity κ α)) :
    (merge old new).1 =
        new.filter (fun b => (current_activities_dict old b.group).isNone) ∧
      (merge old new).2.1 =
        new.filterMap (fun b => (current_activities_dict old b.group).map
          (fun o => (o, mergedOf o b))) ∧
      (merge old new).1.length + (merge old new).2.1.length = new.length := by
  refine ⟨?_, ?_, ?_⟩
  · unfold merge
    rw [mergeGo_eq]
  · unfold merge
    rw [mergeGo_eq]
  · exact mergeGo_length _ _

/-- C5: every input activity lands in exactly one bucket of
`group_activities`'s result (the buckets' contents are jointly a
permutation of the input and the stored keys are pairwise distinct),
the key a bucket is stored under is the bucket's own group and the
`get_group` value of each of its activities, and the bucket stored
under a key is created exactly when the key is seen (it collects, in
order, precisely the input activities with that key). -/
theorem grouping_completeness {α κ : Type} [DecidableEq κ]
    (gg : α → κ) (acts : List α) :
    (((BaseAggregator.group_activities gg acts).map
        (fun p => p.2.activities)).flatten).Perm acts ∧
      ((BaseAggregator.group_activities gg acts).map Prod.fst).Nodup ∧
      (∀ p ∈ BaseAggregator.group_activities gg acts,
        p.2.group = p.1 ∧ ∀ a ∈ p.2.activities, gg a = p.1) ∧
      (∀ k, BaseAggregator.lookupKey
          (BaseAggregator.group_activities gg acts) k =
        if (acts.filter (fun a => gg a = k)).isEmpty then none
        else some ⟨k, acts.filter (fun a => gg a = k)⟩) := by
  refine ⟨?_, ?_, ?_, BaseAggregator.lookupKey_group_activities gg acts⟩
  · have h := BaseAggregator.flatten_foldl gg acts []
    simpa [BaseAggregator.group_activities] using h
  · exact BaseAggregator.nodup_keys_foldl gg acts (by simp)
  · intro p hp
    refine ⟨BaseAggregator.group_eq_key_foldl gg acts (by simp) p hp, ?_⟩
    intro a ha
    obtain ⟨h1, -⟩ := BaseAggregator.bucket_eq_filter gg acts hp
    rw [h1] at ha
    simpa using (List.mem_filter.1 ha).2

/-- C6: the activities inside any bucket produced by `group_activities`
are exactly the input's activities with that bucket's key, as a filter
of the input, hence a sublist: their relative input order is
preserved. -/
theorem grouping_order_preservation {α κ : Type} [DecidableEq κ]
    (gg : α → κ) (acts : List α) (p : κ × AggregatedActivity κ α)
    (hp : p ∈ BaseAggregator.group_activities gg acts) :
    p.2.activities = acts.filter (fun a => gg a = p.1) ∧
      p.2.activities.Sublist acts := by
  obtain ⟨h1, -⟩ := BaseAggregator.bucket_eq_filter gg acts hp
  constructor
  · rw [h1]
  · rw [h1]
    exact List.filter_sublist _

/-- Witness for C6: grouping ids 1,2,3,4 modulo 3, the bucket stored
under key 1 holds [1, 4], the input subsequence with residue 1. -/
theorem grouping_order_preservation_witness :
    (((1 : Nat), AggregatedActivity.mk (1 : Nat) [(1 : Nat), 4]) ∈
        BaseAggregator.group_activities (fun n : Nat => n % 3)
          [(1 : Nat), 2, 3, 4]) ∧
      ((AggregatedActivity.mk (1 : Nat) [(1 : Nat), 4]).activities =
          [(1 : Nat), 2, 3, 4].filter (fun a => a % 3 = 1) ∧
        (AggregatedActivity.mk (1 : Nat) [(1 : Nat), 4]).activities.Sublist
          [(1 : Nat), 2, 3, 4]) :=
  ⟨by decide,
    grouping_order_preservation (fun n : Nat => n % 3) [(1 : Nat), 2, 3, 4]
      ((1 : Nat), AggregatedActivity.mk (1 : Nat) [(1 : Nat), 4])
      (by decide)⟩

/-- Counterexample to C7 as stated: on a bucket with no activities,
`ModulusAggregator.rank`'s key function computes `max([])`, which
raises `ValueError` in Python (modelled `none`); the same happens to
`RecentVerbAggregator.rank`'s `updated_at`.  So neither returns a
permutation of that input — they do not return at all. -/
theorem rank_is_permutation_cex :
    ModulusAggregator.rank
        [AggregatedActivity.mk (0 : Nat) ([] : List Activity)] = none ∧
      RecentVerbAggregator.rank
        [AggregatedActivity.mk (0 : Nat) ([] : List Activity)] = none ∧
      ¬ ∃ lm, ModulusAggregator.rank
            [AggregatedActivity.mk (0 : Nat) ([] : List Activity)] =
          some lm ∧
        lm.Perm [AggregatedActivity.mk (0 : Nat) ([] : List Activity)] := by
  refine ⟨rfl, rfl, ?_⟩
  rintro ⟨lm, hlm, -⟩
  exact Option.noConfusion hlm

/-- C7 (amended): on every input whose buckets all hold at least one
activity — which includes every output of a grouping pass — both
reference `rank`s return a permutation of their input: no bucket is
added, removed, or modified, only reordered. -/
theorem rank_is_permutation {κ : Type} (l : List (AggregatedActivity κ Activity))
    (h : ∀ b ∈ l, b.activities ≠ []) :
    (∃ lm, ModulusAggregator.rank l = some lm ∧ lm.Perm l) ∧
      (∃ lr, RecentVerbAggregator.rank l = some lr ∧ lr.Perm l) := by
  have hall1 : l.all (fun b => (ModulusAggregator.sort_key b).isSome) = true := by
    rw [List.all_eq_true]
    intro b hb
    exact ModulusAggregator.sort_key_isSome (h b hb)
  have hall2 : l.all (fun b => (RecentVerbAggregator.updated_at b).isSome) = true := by
    rw [List.all_eq_true]
    intro b hb
    exact RecentVerbAggregator.updated_at_isSome (h b hb)
  constructor
  · have heq : ModulusAggregator.rank l =
        some (l.mergeSort (fun x y =>
          (ModulusAggregator.sort_key x).getD 0 ≤
            (ModulusAggregator.sort_key y).getD 0)) := by
      unfold ModulusAggregator.rank
      rw [if_pos hall1]
    exact ⟨_, heq, List.mergeSort_perm l _⟩
  · have heq : RecentVerbAggregator.rank l =
        some (l.mergeSort (fun x y =>
          (RecentVerbAggregator.updated_at y).getD 0 ≤
            (RecentVerbAggregator.updated_at x).getD 0)) := by
      unfold RecentVerbAggregator.rank
      rw [if_pos hall2]
    exact ⟨_, heq, List.mergeSort_perm l _⟩

/-- Witness for C7 at a concrete input: one bucket holding one
activity. -/
theorem rank_is_permutation_witness :
    (∀ b ∈ [AggregatedActivity.mk (0 : Nat) [Activity.mk 1 5]],
        b.activities ≠ []) ∧
      ((∃ lm, ModulusAggregator.rank
            [AggregatedActivity.mk (0 : Nat) [Activity.mk 1 5]] =
          some lm ∧
          lm.Perm [AggregatedActivity.mk (0 : Nat) [Activity.mk 1 5]]) ∧
        (∃ lr, RecentVerbAggregator.rank
            [AggregatedActivity.mk (0 : Nat) [Activity.mk 1 5]] =
          some lr ∧
          lr.Perm [AggregatedActivity.mk (0 : Nat) [Activity.mk 1 5]])) :=
  ⟨by decide,
    rank_is_permutation [AggregatedActivity.mk (0 : Nat) [Activity.mk 1 5]]
      (by decide)⟩

/-- C9: aggregating activities with ids 1, 2, 3, 4 under the modulus
strategy with the default modulus 3 yields buckets 1 ↦ [1, 4],
2 ↦ [2], 0 ↦ [3], ranked ascending by max id (2 < 3 < 4) into the
order [group 2, group 0, group 1]. -/
theorem modulus_scenario :
    ModulusAggregator.aggregate 3
        [Activity.mk 1 0, Activity.mk 2 0, Activity.mk 3 0, Activity.mk 4 0] =
      some [AggregatedActivity.mk 2 [Activity.mk 2 0],
        AggregatedActivity.mk 0 [Activity.mk 3 0],
        AggregatedActivity.mk 1 [Activity.mk 1 0, Activity.mk 4 0]] := by
  unfold ModulusAggregator.aggregate
  rw [show BaseAggregator.values
      (BaseAggregator.group_activities (ModulusAggregator.get_group 3)
        [Activity.mk 1 0, Activity.mk 2 0, Activity.mk 3 0,
          Activity.mk 4 0]) =
    [AggregatedActivity.mk 1 [Activity.mk 1 0, Activity.mk 4 0],
      AggregatedActivity.mk 2 [Activity.mk 2 0],
      AggregatedActivity.mk 0 [Activity.mk 3 0]] from rfl]
  unfold ModulusAggregator.rank
  rw [if_pos (by decide)]
  simp [List.mergeSort, ModulusAggregator.sort_key, List.max?_cons']

/-- C10: every bucket of a grouping pass holds at least one activity
(buckets are created only on first append), so the max taken by
`ModulusAggregator`'s sort key always ranges over a non-empty list and
the `max([])` error branch is unreachable on any output of `aggregate`:
the modulus aggregate never raises. -/
theorem buckets_nonempty {α κ : Type} [DecidableEq κ]
    (gg : α → κ) (acts : List α) (modulus : Nat) (hm : 0 < modulus)
    (macts : List Activity) :
    (∀ p ∈ BaseAggregator.group_activities gg acts, p.2.activities ≠ []) ∧
      (ModulusAggregator.aggregate modulus macts).isSome = true := by
  refine ⟨BaseAggregator.group_activities_nonempty gg acts, ?_⟩
  have hall : (BaseAggregator.values
      (BaseAggregator.group_activities (ModulusAggregator.get_group modulus)
        macts)).all (fun b => (ModulusAggregator.sort_key b).isSome) = true := by
    rw [List.all_eq_true]
    intro b hb
    obtain ⟨p, hp, rfl⟩ := List.mem_map.1 hb
    exact ModulusAggregator.sort_key_isSome
      (BaseAggregator.group_activities_nonempty _ _ p hp)
  unfold ModulusAggregator.aggregate ModulusAggregator.rank
  rw [if_pos hall]
  rfl

/-- Witness for C10 with the default modulus 3, grouping residues of
[1, 2, 3] and aggregating a one-activity batch. -/
theorem buckets_nonempty_witness :
    0 < 3 ∧
      ((∀ p ∈ BaseAggregator.group_activities (fun n : Nat => n % 3)
          [(1 : Nat), 2, 3], p.2.activities ≠ []) ∧
        (ModulusAggregator.aggregate 3 [Activity.mk 1 0]).isSome = true) :=
  ⟨by decide,
    buckets_nonempty (fun n : Nat => n % 3) [(1 : Nat), 2, 3] 3 (by decide)
      [Activity.mk 1 0]⟩

/-- C2: on the heap model (bucket objects addressed by references,
`deepcopy` allocating a fresh cell, `append` mutating in place), merging
leaves every bucket object of the old generation untouched — the cell of
each old reference still holds the same group and activity sequence
after the call — while every merged bucket in `changed` lives at a
freshly allocated reference: distinct from its old counterpart and from
every old object, so the old generation is never aliased or mutated. -/
theorem merge_non_mutation {κ α : Type} [DecidableEq κ] (h : Heap κ α)
    (old new : List Nat) (hv : ∀ r ∈ old, r < h.next) :
    (∀ r ∈ old, (mergeS h old new).1.mem r = h.mem r) ∧
      (∀ p ∈ (mergeS h old new).2.2.1,
        p.1 ∈ old ∧ h.next ≤ p.2 ∧ ∀ r ∈ old, p.2 ≠ r) := by
  constructor
  · intro r hr
    exact mergeSGo_frame (heapDict h old) new h (hv r hr)
  · intro p hp
    obtain ⟨⟨k, hk⟩, hle⟩ := mergeSGo_changed (heapDict h old) new h p hp
    refine ⟨heapDict_mem h old k p.1 hk, hle, ?_⟩
    intro r hr heq
    have := hv r hr
    omega

/-- Witness for C2: a heap with an old bucket (key 0, one activity) at
cell 0 and a new bucket of the same key at cell 1. -/
theorem merge_non_mutation_witness :
    (∀ r ∈ [0], r < exampleHeap.next) ∧
      ((∀ r ∈ [0], (mergeS exampleHeap [0] [1]).1.mem r =
          exampleHeap.mem r) ∧
        (∀ p ∈ (mergeS exampleHeap [0] [1]).2.2.1,
          p.1 ∈ [0] ∧ exampleHeap.next ≤ p.2 ∧ ∀ r ∈ [0], p.2 ≠ r)) :=
  ⟨by decide, merge_non_mutation exampleHeap [0] [1] (by decide)⟩

end Feedly.Claims
